import Mathlib

/-
Verification development for the relational-reasoning engine of the
llm_ontology_sparql_pipeline repository (src/ontology/graph_interrogator.py).

The module is shallowly embedded: rdflib terms become the inductive `Node`
(URI reference, literal, or blank node), a graph is its list of triples (the
list order models the store's deterministic iteration order), and each Python
function of the source file becomes a Lean function of the same name.
-/

namespace GraphInterrogator

/-- An rdflib term: URI reference, literal, or blank node.  A literal carries
its lexical text; language tags and datatypes play no role in the reasoning
engine and are not modelled. -/
inductive Node where
  | uri (s : String)
  | lit (s : String)
  | blank (s : String)
deriving DecidableEq

/-- A subject-predicate-object triple. -/
abbrev Triple := Node × Node × Node

/-- The graph is its list of triples; list order models the triple store's
iteration order, which rdflib keeps deterministic within a process. -/
abbrev Graph := List Triple

/-- isinstance(n, URIRef) -/
def isURI : Node → Bool
  | .uri _ => true
  | _ => false

/-- isinstance(n, Literal) -/
def isLit : Node → Bool
  | .lit _ => true
  | _ => false

/-- str(n): rdflib terms are str subclasses; their text is the payload. -/
def nodeStr : Node → String
  | .uri s => s
  | .lit s => s
  | .blank s => s

/-- Python truthiness of an rdflib term (a str subclass): nonempty text. -/
def nodeTruthy (n : Node) : Bool := !(nodeStr n).isEmpty

/-- RDFS.label -/
def rdfs_label : Node := .uri "http://www.w3.org/2000/01/rdf-schema#label"

/-- RDF.type -/
def rdf_type : Node := .uri "http://www.w3.org/1999/02/22-rdf-syntax-ns#type"

/-- graph.triples((s, None, None)) -/
def triples_subj (g : Graph) (s : Node) : List Triple :=
  g.filter (fun t => decide (t.1 = s))

/-- graph.triples((None, p, None)) -/
def triples_pred (g : Graph) (p : Node) : List Triple :=
  g.filter (fun t => decide (t.2.1 = p))

/-- graph.predicate_objects(subject=c) -/
def predicate_objects (g : Graph) (c : Node) : List (Node × Node) :=
  (triples_subj g c).map (fun t => (t.2.1, t.2.2))

/-- graph.subject_predicates(object=c) -/
def subject_predicates (g : Graph) (c : Node) : List (Node × Node) :=
  (g.filter (fun t => decide (t.2.2 = c))).map (fun t => (t.1, t.2.1))

/-- graph.value(predicate=p, object=o): the first subject of a matching
triple in iteration order, None when there is no match. -/
def graph_value_subj (g : Graph) (p o : Node) : Option Node :=
  ((g.filter (fun t => decide (t.2.1 = p) && decide (t.2.2 = o))).head?).map (fun t => t.1)

/-- graph.value(subject=s, predicate=p): the first object of a matching
triple in iteration order, None when there is no match. -/
def graph_value_obj (g : Graph) (s p : Node) : Option Node :=
  ((g.filter (fun t => decide (t.1 = s) && decide (t.2.1 = p))).head?).map (fun t => t.2.2)

/-- Helper for the Python substring test: does the first list lead the second? -/
def listLeads : List Char → List Char → Bool
  | [], _ => true
  | _ :: _, [] => false
  | c :: cs, d :: ds => c == d && listLeads cs ds

/-- Python's `needle in hay` on strings: substring occurrence. -/
def strIn (needle hay : String) : Bool :=
  hay.data.tails.any (fun t => listLeads needle.data t)

/-- question.lower() / label.lower(): per-character lowercasing (the
questions and labels of this repository only exercise it on ASCII). -/
def strLower (s : String) : String := ⟨s.data.map Char.toLower⟩

/-- Insert with set semantics (no duplicates), keeping first-insertion order:
models adding to a Python set / the redundant `not in` guard of the source. -/
def sinsert {α : Type} [DecidableEq α] (l : List α) (a : α) : List α :=
  if a ∈ l then l else l ++ [a]

/-- The static synonym table of _identify_all_entities, verbatim. -/
def synonym_map : List (String × List String) :=
  [("solution", ["Algorithme de compensation", "Stratégie d'Optimisation", "Padding mémoire 3D"]),
   ("corriger", ["Algorithme de compensation", "Stratégie d'Optimisation"]),
   ("lent", ["Goulot d'étranglement réseau", "Haute latence inter-groupe"]),
   ("problème", ["Problème de précision", "ProblemePerformance", "False sharing", "Bank conflicts L2"])]

/-- One synonym-label resolution step of the synonym pass:
subject = graph.value(predicate=RDFS.label, object=Literal(label_text));
if subject and isinstance(subject, URIRef): found_entities.add(subject). -/
def addLabelEntity (g : Graph) (found : List Node) (label_text : String) : List Node :=
  match graph_value_subj g rdfs_label (.lit label_text) with
  | some subject => if nodeTruthy subject && isURI subject then sinsert found subject else found
  | none => found

/-- PARTIE 1 of _identify_all_entities: the synonym pass over the table. -/
def synonymPass (question_lower : String) (g : Graph) : List Node :=
  synonym_map.foldl
    (fun found kv =>
      if strIn kv.1 question_lower then kv.2.foldl (addLabelEntity g) found else found)
    []

/-- PARTIE 2 of _identify_all_entities: the direct-label pass over every
(s, RDFS.label, o) triple of the graph. -/
def directPass (question_lower : String) (g : Graph) (found0 : List Node) : List Node :=
  (triples_pred g rdfs_label).foldl
    (fun found t =>
      if isURI t.1 && isLit t.2.2 then
        (if strIn (strLower (nodeStr t.2.2)) question_lower then sinsert found t.1 else found)
      else found)
    found0

/-- _identify_all_entities: lowercase the question, run the synonym pass,
then the direct-label pass into the same deduplicating collection.  The
Python set is modelled as an insertion-ordered duplicate-free list. -/
def _identify_all_entities (question : String) (g : Graph) : List Node :=
  directPass (strLower question) g (synonymPass (strLower question) g)

/-- s.split(sep)[-1] -/
def lastSplit (sep : String) (s : String) : String := (s.splitOn sep).getLastD s

/-- node_uri.split('#')[-1].split('/')[-1] -/
def uriFragment (u : String) : String := lastSplit "/" (lastSplit "#" u)

/-- _get_node_label: a non-URIRef renders as str(node); a URIRef renders as
its label triple's text when a truthy label exists, else as the trailing
fragment of the URI. -/
def _get_node_label (node_uri : Node) (g : Graph) : String :=
  match node_uri with
  | .uri u =>
    match graph_value_obj g (.uri u) rdfs_label with
    | some lab => if nodeTruthy lab then nodeStr lab else uriFragment u
    | none => uriFragment u
  | n => nodeStr n

/-- The candidate hops scanned while one node is dequeued in
_find_shortest_path: PHASE 1 (outgoing edges, hop recorded as
(current, p, o)) followed by PHASE 2 (incoming edges, hop recorded as
(s, p, current)); each candidate is the neighbor paired with the recorded
triple, so the stored direction of the edge is preserved. -/
def candidates (g : Graph) (current : Node) : List (Node × Triple) :=
  (predicate_objects g current).map (fun po => (po.2, (current, po.1, po.2))) ++
  (subject_predicates g current).map (fun sp => (sp.1, (sp.1, sp.2, current)))

/-- The body of one dequeue of _find_shortest_path: scan the candidate hops
in order; skip a candidate that is not a URIRef or is already visited;
return the extended path as soon as the end node is generated; otherwise
mark the neighbor visited and enqueue it. `.error` is the early return with
the found path, `.ok` the accumulated new queue entries and visited set. -/
def expand (endN : Node) (path : List Triple) :
    List (Node × Triple) → List (Node × List Triple) → List Node →
    Except (List Triple) (List (Node × List Triple) × List Node)
  | [], acc, visited => .ok (acc, visited)
  | (cand, t) :: rest, acc, visited =>
    if isURI cand && decide (cand ∉ visited) then
      (if cand = endN then .error (path ++ [t])
       else expand endN path rest (acc ++ [(cand, path ++ [t])]) (cand :: visited))
    else expand endN path rest acc visited

/-- The while-loop of _find_shortest_path.  Fuel only bounds the iteration
count so the recursion is structural; `_find_shortest_path` supplies fuel
large enough that the `none` (out of fuel) branch is unreachable, which
`bfsLoop_enough_fuel` proves.  `some none` is the loop running the queue
dry (no path), `some (some p)` the early return with path p. -/
def bfsLoop (g : Graph) (endN : Node) :
    Nat → List (Node × List Triple) → List Node → Option (Option (List Triple))
  | 0, _, _ => none
  | _ + 1, [], _ => some none
  | fuel + 1, (current, path) :: rest, visited =>
    match expand endN path (candidates g current) [] visited with
    | .error found => some (some found)
    | .ok (news, visited2) => bfsLoop g endN fuel (rest ++ news) visited2

/-- All nodes occurring in subject or object position of the graph. -/
def nodesOfGraph (g : Graph) : Finset Node :=
  (g.map (fun t => t.1) ++ g.map (fun t => t.2.2)).toFinset

/-- _find_shortest_path: identical endpoints give the empty path without
searching; otherwise run the BFS from queue [(start, [])] and
visited = {start}; None models "no path". -/
def _find_shortest_path (g : Graph) (start_node end_node : Node) : Option (List Triple) :=
  if start_node = end_node then some [] else
    match bfsLoop g end_node ((nodesOfGraph g).card + 2) [(start_node, [])] [start_node] with
    | some r => r
    | none => none

/-- The node reached by traversing triple t undirectedly from node a. -/
def stepTo (t : Triple) (a : Node) : Node := if t.1 = a then t.2.2 else t.1

/-- Triple t is a hop of the graph from a to b in the undirected traversal
of _find_shortest_path: t is stored in the graph, the reached node b is a
URIRef, and t is either the outgoing edge (a, p, b) or the incoming edge
(b, p, a). -/
def edgeOf (g : Graph) (t : Triple) (a b : Node) : Prop :=
  t ∈ g ∧ isURI b = true ∧ ((t.1 = a ∧ t.2.2 = b) ∨ (t.1 = b ∧ t.2.2 = a))

/-- The list of triples is an undirected connection from a to b: consecutive
hops in the sense of `edgeOf`. -/
def isChain (g : Graph) : Node → List Triple → Node → Prop
  | a, [], b => a = b
  | a, t :: ts, b => ∃ c, edgeOf g t a c ∧ isChain g c ts b

/-- The sequence of nodes visited along a path starting at a. -/
def chainNodes (a : Node) : List Triple → List Node
  | [] => [a]
  | t :: ts => a :: chainNodes (stepTo t a) ts

/-- The final node of a path starting at a. -/
def lastNode (a : Node) : List Triple → Node
  | [] => a
  | t :: ts => lastNode (stepTo t a) ts

/-- One undirected hop of the graph between two nodes. -/
def stepRel (g : Graph) (a b : Node) : Prop := ∃ t, edgeOf g t a b

/-- v is connected to s by some undirected chain of at most n hops. -/
def reachIn (g : Graph) (s : Node) (n : Nat) (v : Node) : Prop :=
  ∃ q, isChain g s q v ∧ q.length ≤ n

/-- Loop invariant of the BFS of _find_shortest_path, for start s and end e:
the start is visited and the end is not; every queue entry carries a valid
undirected chain from s to its node, of minimal hop count, visiting
pairwise-distinct visited nodes; queue nodes are distinct and visited; a
visited node no longer in the queue has all its undirected neighbors
visited; and the queue consists of a nonempty block of entries at some
level ℓ followed by entries at level ℓ+1, with every node within ℓ hops of
s already visited. -/
structure BfsInv (g : Graph) (s e : Node)
    (queue : List (Node × List Triple)) (vis : List Node) : Prop where
  sVis : s ∈ vis
  eNot : e ∉ vis
  chainAll : ∀ ent ∈ queue, isChain g s ent.2 ent.1
  minAll : ∀ ent ∈ queue, ∀ q, isChain g s q ent.1 → ent.2.length ≤ q.length
  visAll : ∀ ent ∈ queue, ent.1 ∈ vis
  nodupAll : ∀ ent ∈ queue, (chainNodes s ent.2).Nodup
  nodesVis : ∀ ent ∈ queue, ∀ x ∈ chainNodes s ent.2, x ∈ vis
  qNodup : (queue.map Prod.fst).Nodup
  closed : ∀ v ∈ vis, v ∉ queue.map Prod.fst → ∀ w, stepRel g v w → w ∈ vis
  levels : queue = [] ∨ ∃ ℓ A B, queue = A ++ B ∧ A ≠ [] ∧
      (∀ ent ∈ A, ent.2.length = ℓ) ∧ (∀ ent ∈ B, ent.2.length = ℓ + 1) ∧
      (∀ v, reachIn g s ℓ v → v ∈ vis)

/-- Python truthiness of the path_found variable: a non-None, nonempty list. -/
def optTruthy : Option (List Triple) → Bool
  | some (_ :: _) => true
  | _ => false

/-- itertools.permutations(l, 2): all ordered pairs of entries at distinct
positions, in the enumeration order of nested index loops. -/
def perms2 {α : Type} (l : List α) : List (α × α) :=
  (l.enum.map (fun ia =>
    (l.enum.filter (fun jb => decide (jb.1 ≠ ia.1))).map (fun jb => (ia.2, jb.2)))).flatten

/-- The pair loop of find_reasoning_path: path_found starts as None, each
pair overwrites it with the search result, and the loop breaks at the first
truthy (non-None, nonempty) result. -/
def loopPairs (g : Graph) : Option (List Triple) → List (Node × Node) → Option (List Triple)
  | pf, [] => pf
  | _, pr :: rest =>
    let r := _find_shortest_path g pr.1 pr.2
    if optTruthy r then r else loopPairs g r rest

/-- Path search stage of find_reasoning_path: only with at least two
resolved entities is any pair tried. -/
def pathSearch (g : Graph) (ents : List Node) : Option (List Triple) :=
  if 2 ≤ ents.length then loopPairs g none (perms2 ents) else none

/-- The ordered pairs on which the pair loop actually invokes
_find_shortest_path (instrumentation of `loopPairs` for the enumeration
claim): each scanned pair is recorded, and the loop breaks after the first
truthy result. -/
def loopPairsTrace (g : Graph) : List (Node × Node) → List (Node × Node)
  | [] => []
  | pr :: rest =>
    pr :: (if optTruthy (_find_shortest_path g pr.1 pr.2) then [] else loopPairsTrace g rest)

/-- The pairs on which find_reasoning_path invokes the path search. -/
def searchedPairs (g : Graph) (ents : List Node) : List (Node × Node) :=
  if 2 ≤ ents.length then loopPairsTrace g (perms2 ents) else []

/-- nodes_in_path: the set of subjects of path triples together with the
URIRef objects of path triples (insertion-ordered model of the Python set). -/
def nodesInPath (p : List Triple) : List Node :=
  ((p.map (fun t => t.1)) ++ (p.filter (fun t => isURI t.2.2)).map (fun t => t.2.2)).foldl sinsert []

/-- p_fact in [RDFS.label, RDF.type] -/
def labelOrTypeB (t : Triple) : Bool := decide (t.2.1 = rdfs_label) || decide (t.2.1 = rdf_type)

/-- CAS A of find_reasoning_path: all path triples, then for every node on
the path its label and type triples from the graph, deduplicated. -/
def collectPathFacts (g : Graph) (p : List Triple) : List Triple :=
  (nodesInPath p).foldl
    (fun acc node => ((triples_subj g node).filter labelOrTypeB).foldl sinsert acc)
    (p.foldl sinsert [])

/-- CAS B of find_reasoning_path: every triple whose subject is the main
entity, deduplicated. -/
def collectNeighborhood (g : Graph) (e : Node) : List Triple :=
  (triples_subj g e).foldl sinsert []

/-- ÉTAPE 3 of find_reasoning_path: CAS A when path_found is truthy, else
CAS B on the first resolved entity (guarded by `if initial_entities:`). -/
def factsFor (g : Graph) (ents : List Node) (pf : Option (List Triple)) : List Triple :=
  match pf with
  | some (t :: ts) => collectPathFacts g (t :: ts)
  | _ =>
    match ents with
    | [] => []
    | e :: _ => collectNeighborhood g e

/-- Rendering of one deduced fact; a literal (or blank) object is quoted
instead of label-resolved. -/
def formatFact (g : Graph) (t : Triple) : String :=
  _get_node_label t.1 g ++ " --[" ++ _get_node_label t.2.1 g ++ "]--> " ++
    (if isURI t.2.2 then _get_node_label t.2.2 g else "\"" ++ nodeStr t.2.2 ++ "\"")

/-- Rendering of one hop of the found path (objects are label-resolved
unconditionally, as in the source's path formatting). -/
def formatPathStep (g : Graph) (t : Triple) : String :=
  _get_node_label t.1 g ++ " --[" ++ _get_node_label t.2.1 g ++ "]--> " ++ _get_node_label t.2.2 g

/-- The rapport final of find_reasoning_path. -/
structure Report where
  question : String
  entites_initiales : List String
  chemin_trouve : List String
  faits_deduits : List String
deriving DecidableEq

/-- find_reasoning_path: resolve entities; an empty resolution returns the
empty report at once; otherwise search pairs for a path, collect the facts
for the regime selected by the truthiness of path_found, and format. -/
def find_reasoning_path (question : String) (g : Graph) : Report :=
  match _identify_all_entities question g with
  | [] => ⟨question, [], [], []⟩
  | e0 :: tl =>
    let path_found := pathSearch g (e0 :: tl)
    let all_facts := factsFor g (e0 :: tl) path_found
    ⟨question,
     (e0 :: tl).map (fun x => _get_node_label x g),
     (if optTruthy path_found then (path_found.getD []).map (formatPathStep g) else []),
     all_facts.map (formatFact g)⟩

/-- Fixture: entity URIs for concrete instances. -/
def nA : Node := .uri "http://example.org/onto#A"

def nB : Node := .uri "http://example.org/onto#B"

def nC : Node := .uri "http://example.org/onto#C"

def nX : Node := .uri "http://example.org/onto#X"

def nY : Node := .uri "http://example.org/onto#Y"

def nS : Node := .uri "http://example.org/onto#S"

def rAB : Node := .uri "http://example.org/onto#rAB"

def rAC : Node := .uri "http://example.org/onto#rAC"

def rCB : Node := .uri "http://example.org/onto#rCB"

def rBA : Node := .uri "http://example.org/onto#rBA"

def rXY : Node := .uri "http://example.org/onto#rXY"

/-- Fixture graph: a direct edge A→B next to a 2-hop route A→C→B. -/
def fixture1 : Graph := [(nA, rAB, nB), (nA, rAC, nC), (nC, rCB, nB)]

/-- Fixture graph: A and B connected only by the edge stored as (B, rBA, A). -/
def fixture2 : Graph := [(nB, rBA, nA)]

/-- Fixture graph with labels for the resolver: X labelled alpha, Y labelled
beta, and an edge X→Y. -/
def fixtureLab : Graph :=
  [(nX, rdfs_label, .lit "alpha"), (nY, rdfs_label, .lit "beta"), (nX, rXY, nY)]

/-- Fixture graph for the single-entity regime: X labelled alpha with one
further outgoing edge. -/
def fixtureLab1 : Graph := [(nX, rdfs_label, .lit "alpha"), (nX, rXY, nY)]

/-- Fixture graph for the synonym pass: S carries the label of a synonym
table entry. -/
def fixtureSyn : Graph := [(nS, rdfs_label, .lit "Algorithme de compensation")]

/-! Generic lemmas about the deduplicating insert and its folds. -/

theorem mem_sinsert {α : Type} [DecidableEq α] {l : List α} {a x : α} :
    x ∈ sinsert l a ↔ x ∈ l ∨ x = a := by
  unfold sinsert
  by_cases h : a ∈ l
  · rw [if_pos h]
    exact ⟨fun hx => Or.inl hx, fun hx => hx.elim id (fun e => e ▸ h)⟩
  · rw [if_neg h]
    simp [List.mem_append]

theorem sinsert_nodup {α : Type} [DecidableEq α] {l : List α} (h : l.Nodup) (a : α) :
    (sinsert l a).Nodup := by
  unfold sinsert
  by_cases ha : a ∈ l
  · rwa [if_pos ha]
  · rw [if_neg ha]
    simp [List.nodup_append, h, ha]

theorem mem_foldl_sinsert {α : Type} [DecidableEq α] :
    ∀ (l init : List α) (x : α), x ∈ l.foldl sinsert init ↔ x ∈ init ∨ x ∈ l := by
  intro l
  induction l with
  | nil => simp
  | cons a tl ih =>
    intro init x
    rw [List.foldl_cons, ih, mem_sinsert]
    constructor
    · rintro ((h | h) | h)
      · exact Or.inl h
      · exact Or.inr (List.mem_cons.mpr (Or.inl h))
      · exact Or.inr (List.mem_cons.mpr (Or.inr h))
    · rintro (h | h)
      · exact Or.inl (Or.inl h)
      · rcases List.mem_cons.mp h with rfl | h2
        · exact Or.inl (Or.inr rfl)
        · exact Or.inr h2

theorem foldl_sinsert_nodup {α : Type} [DecidableEq α] :
    ∀ (l init : List α), init.Nodup → (l.foldl sinsert init).Nodup := by
  intro l
  induction l with
  | nil => intro init h; exact h
  | cons a tl ih => intro init h; exact ih _ (sinsert_nodup h a)

theorem mem_foldl_fold {α β : Type} [DecidableEq α] (f : β → List α) :
    ∀ (nodes : List β) (init : List α) (x : α),
      x ∈ nodes.foldl (fun acc n => (f n).foldl sinsert acc) init ↔
        x ∈ init ∨ ∃ n ∈ nodes, x ∈ f n := by
  intro nodes
  induction nodes with
  | nil => simp
  | cons n tl ih =>
    intro init x
    rw [List.foldl_cons, ih, mem_foldl_sinsert]
    simp [or_assoc]

theorem foldl_fold_nodup {α β : Type} [DecidableEq α] (f : β → List α) :
    ∀ (nodes : List β) (init : List α), init.Nodup →
      (nodes.foldl (fun acc n => (f n).foldl sinsert acc) init).Nodup := by
  intro nodes
  induction nodes with
  | nil => intro init h; exact h
  | cons n tl ih => intro init h; exact ih _ (foldl_sinsert_nodup _ _ h)

/-! Lemmas about undirected chains. -/

theorem isChain_nil {g : Graph} {a b : Node} : isChain g a [] b ↔ a = b := Iff.rfl

theorem isChain_cons {g : Graph} {a b : Node} {t : Triple} {ts : List Triple} :
    isChain g a (t :: ts) b ↔ ∃ c, edgeOf g t a c ∧ isChain g c ts b := Iff.rfl

theorem stepTo_edge {g : Graph} {t : Triple} {a b : Node} (h : edgeOf g t a b) :
    stepTo t a = b := by
  obtain ⟨-, -, h3⟩ := h
  unfold stepTo
  rcases h3 with ⟨h1, h2⟩ | ⟨h1, h2⟩
  · rw [if_pos h1, h2]
  · by_cases he : t.1 = a
    · rw [if_pos he, h2, ← h1, he]
    · rw [if_neg he, h1]

theorem lastNode_chain {g : Graph} :
    ∀ {p : List Triple} {a b : Node}, isChain g a p b → lastNode a p = b := by
  intro p
  induction p with
  | nil => intro a b h; exact h
  | cons t ts ih =>
    intro a b h
    obtain ⟨c, he, hc⟩ := h
    show lastNode (stepTo t a) ts = b
    rw [stepTo_edge he]
    exact ih hc

theorem isChain_append_single {g : Graph} :
    ∀ {p : List Triple} {a b : Node} {t : Triple},
      isChain g a (p ++ [t]) b ↔ ∃ u, isChain g a p u ∧ edgeOf g t u b := by
  intro p
  induction p with
  | nil =>
    intro a b t
    constructor
    · rintro ⟨c, he, hc⟩
      exact ⟨a, rfl, by rwa [show c = b from hc] at he⟩
    · rintro ⟨u, hu, he⟩
      exact ⟨b, by rwa [show a = u from hu], rfl⟩
  | cons t' ts ih =>
    intro a b t
    constructor
    · rintro ⟨c, he, hc⟩
      obtain ⟨u, hu, he2⟩ := ih.mp hc
      exact ⟨u, ⟨c, he, hu⟩, he2⟩
    · rintro ⟨u, ⟨c, he, hu⟩, he2⟩
      exact ⟨c, he, ih.mpr ⟨u, hu, he2⟩⟩

theorem chainNodes_append_single :
    ∀ (p : List Triple) (a : Node) (t : Triple),
      chainNodes a (p ++ [t]) = chainNodes a p ++ [stepTo t (lastNode a p)] := by
  intro p
  induction p with
  | nil => intro a t; rfl
  | cons t' ts ih =>
    intro a t
    show a :: chainNodes (stepTo t' a) (ts ++ [t]) = _
    rw [ih]
    rfl

theorem isChain_mem_graph {g : Graph} :
    ∀ {p : List Triple} {a b : Node}, isChain g a p b → ∀ t ∈ p, t ∈ g := by
  intro p
  induction p with
  | nil => intro a b _ t ht; exact absurd ht (List.not_mem_nil t)
  | cons t' ts ih =>
    intro a b h t ht
    obtain ⟨c, he, hc⟩ := h
    rcases List.mem_cons.mp ht with rfl | ht2
    · exact he.1
    · exact ih hc t ht2

theorem isChain_nodes_uri {g : Graph} :
    ∀ {p : List Triple} {a b : Node}, isChain g a p b → isURI a = true →
      ∀ x ∈ chainNodes a p, isURI x = true := by
  intro p
  induction p with
  | nil =>
    intro a b _ ha x hx
    rcases List.mem_singleton.mp hx with rfl
    exact ha
  | cons t ts ih =>
    intro a b h ha x hx
    obtain ⟨c, he, hc⟩ := h
    rcases List.mem_cons.mp hx with rfl | hx2
    · exact ha
    · rw [stepTo_edge he] at hx2
      exact ih hc he.2.1 x hx2

theorem isChain_triples_uri {g : Graph} :
    ∀ {p : List Triple} {a b : Node}, isChain g a p b → isURI a = true →
      ∀ t ∈ p, isURI t.1 = true ∧ isURI t.2.2 = true := by
  intro p
  induction p with
  | nil => intro a b _ _ t ht; exact absurd ht (List.not_mem_nil t)
  | cons t' ts ih =>
    intro a b h ha t ht
    obtain ⟨c, he, hc⟩ := h
    rcases List.mem_cons.mp ht with rfl | ht2
    · rcases he.2.2 with ⟨h1, h2⟩ | ⟨h1, h2⟩
      · exact ⟨h1 ▸ ha, h2 ▸ he.2.1⟩
      · exact ⟨h1 ▸ he.2.1, h2 ▸ ha⟩
    · exact ih hc he.2.1 t ht2

theorem chain_closure {g : Graph} {vis : List Node}
    (hcl : ∀ v ∈ vis, ∀ w, stepRel g v w → w ∈ vis) :
    ∀ {p : List Triple} {a b : Node}, isChain g a p b → a ∈ vis → b ∈ vis := by
  intro p
  induction p with
  | nil => intro a b h ha; exact h ▸ ha
  | cons t ts ih =>
    intro a b h ha
    obtain ⟨c, he, hc⟩ := h
    exact ih hc (hcl a ha c ⟨t, he⟩)

/-! Lemmas about the candidate hop list of one BFS dequeue. -/

theorem candidate_of_out {g : Graph} {c : Node} {t : Triple} (ht : t ∈ g) (h1 : t.1 = c) :
    (t.2.2, t) ∈ candidates g c := by
  subst h1
  unfold candidates predicate_objects triples_subj
  apply List.mem_append_left
  exact List.mem_map.mpr ⟨(t.2.1, t.2.2),
    List.mem_map.mpr ⟨t, List.mem_filter.mpr ⟨ht, by simp⟩, rfl⟩, rfl⟩

theorem candidate_of_in {g : Graph} {c : Node} {t : Triple} (ht : t ∈ g) (h2 : t.2.2 = c) :
    (t.1, t) ∈ candidates g c := by
  subst h2
  unfold candidates subject_predicates
  apply List.mem_append_right
  exact List.mem_map.mpr ⟨(t.1, t.2.1),
    List.mem_map.mpr ⟨t, List.mem_filter.mpr ⟨ht, by simp⟩, rfl⟩, rfl⟩

theorem candidate_spec {g : Graph} {c : Node} {ct : Node × Triple} (h : ct ∈ candidates g c) :
    ct.2 ∈ g ∧ ((ct.2.1 = c ∧ ct.2.2.2 = ct.1) ∨ (ct.2.1 = ct.1 ∧ ct.2.2.2 = c)) := by
  unfold candidates predicate_objects subject_predicates triples_subj at h
  rcases List.mem_append.mp h with h1 | h1
  · obtain ⟨po, hpo, hct⟩ := List.mem_map.mp h1
    obtain ⟨t, htf, hpo2⟩ := List.mem_map.mp hpo
    obtain ⟨htg, htc⟩ := List.mem_filter.mp htf
    have h1t : t.1 = c := by simpa using htc
    subst hpo2
    subst hct
    subst h1t
    exact ⟨htg, Or.inl ⟨rfl, rfl⟩⟩
  · obtain ⟨sp, hsp, hct⟩ := List.mem_map.mp h1
    obtain ⟨t, htf, hsp2⟩ := List.mem_map.mp hsp
    obtain ⟨htg, htc⟩ := List.mem_filter.mp htf
    have h2t : t.2.2 = c := by simpa using htc
    subst hsp2
    subst hct
    subst h2t
    exact ⟨htg, Or.inr ⟨rfl, rfl⟩⟩

theorem stepRel_candidate {g : Graph} {c w : Node} (h : stepRel g c w) :
    ∃ t, (w, t) ∈ candidates g c := by
  obtain ⟨t, htg, hw, harr⟩ := h
  rcases harr with ⟨h1, h2⟩ | ⟨h1, h2⟩
  · exact ⟨t, h2 ▸ candidate_of_out htg h1⟩
  · exact ⟨t, h1 ▸ candidate_of_in htg h2⟩

theorem candidate_edge {g : Graph} {c : Node} {ct : Node × Triple}
    (h : ct ∈ candidates g c) (hu : isURI ct.1 = true) : edgeOf g ct.2 c ct.1 := by
  obtain ⟨htg, harr⟩ := candidate_spec h
  exact ⟨htg, hu, harr⟩

theorem candidate_node_mem {g : Graph} {c : Node} {ct : Node × Triple}
    (h : ct ∈ candidates g c) : ct.1 ∈ nodesOfGraph g := by
  obtain ⟨htg, harr⟩ := candidate_spec h
  unfold nodesOfGraph
  rw [List.mem_toFinset, List.mem_append]
  rcases harr with ⟨h1, h2⟩ | ⟨h1, h2⟩
  · exact Or.inr (List.mem_map.mpr ⟨ct.2, htg, h2⟩)
  · exact Or.inl (List.mem_map.mpr ⟨ct.2, htg, h1⟩)

/-- Full specification of the candidate scan of one dequeued node c (path
`path` from s, `vis0` the visited set when c was dequeued): an early return
yields the path extended by one hop of the graph from c to e; otherwise the
new entries are exactly the freshly visited URIRef neighbors of c, each
carrying the extended path, and every URIRef candidate ends up visited. -/
theorem expand_spec (g : Graph) (e c : Node) (path : List Triple) (vis0 : List Node)
    (heNot : e ∉ vis0) :
    ∀ (cands : List (Node × Triple)) (acc : List (Node × List Triple)) (vis : List Node),
      (∀ ct ∈ cands, ct.2 ∈ g ∧ ((ct.2.1 = c ∧ ct.2.2.2 = ct.1) ∨ (ct.2.1 = ct.1 ∧ ct.2.2.2 = c))) →
      (∀ x, x ∈ vis ↔ x ∈ vis0 ∨ x ∈ acc.map Prod.fst) →
      (acc.map Prod.fst).Nodup →
      (∀ ent ∈ acc, ent.1 ∉ vis0 ∧ ent.1 ≠ e ∧ ∃ t, ent.2 = path ++ [t] ∧ edgeOf g t c ent.1) →
      (match expand e path cands acc vis with
       | .error r => ∃ t, r = path ++ [t] ∧ edgeOf g t c e
       | .ok (accF, visF) =>
           (∀ x, x ∈ visF ↔ x ∈ vis0 ∨ x ∈ accF.map Prod.fst) ∧
           (accF.map Prod.fst).Nodup ∧
           (∀ ent ∈ accF, ent.1 ∉ vis0 ∧ ent.1 ≠ e ∧ ∃ t, ent.2 = path ++ [t] ∧ edgeOf g t c ent.1) ∧
           (∃ pre, accF = acc ++ pre) ∧
           (∀ ct ∈ cands, isURI ct.1 = true → ct.1 ∈ visF)) := by
  intro cands
  induction cands with
  | nil =>
    intro acc vis _ hvisEq hnodup hspec
    simp only [expand]
    exact ⟨hvisEq, hnodup, hspec, ⟨[], by simp⟩, fun ct hct => absurd hct (List.not_mem_nil ct)⟩
  | cons ct0 rest ih =>
    obtain ⟨cand, t⟩ := ct0
    intro acc vis hCands hvisEq hnodup hspec
    have hct0 := hCands (cand, t) (List.mem_cons_self _ _)
    have hCands2 : ∀ ct ∈ rest, ct.2 ∈ g ∧
        ((ct.2.1 = c ∧ ct.2.2.2 = ct.1) ∨ (ct.2.1 = ct.1 ∧ ct.2.2.2 = c)) :=
      fun ct hct => hCands ct (List.mem_cons_of_mem _ hct)
    simp only [expand]
    by_cases hcond : (isURI cand && decide (cand ∉ vis)) = true
    · rw [if_pos hcond]
      rw [Bool.and_eq_true, decide_eq_true_eq] at hcond
      obtain ⟨hu, hnv⟩ := hcond
      by_cases hce : cand = e
      · rw [if_pos hce]
        subst hce
        exact ⟨t, rfl, hct0.1, hu, hct0.2⟩
      · rw [if_neg hce]
        have hvisEq2 : ∀ x, x ∈ cand :: vis ↔
            x ∈ vis0 ∨ x ∈ (acc ++ [(cand, path ++ [t])]).map Prod.fst := by
          intro x
          rw [List.map_append, List.mem_cons]
          constructor
          · rintro (rfl | hx)
            · exact Or.inr (List.mem_append_right _ (by simp))
            · rcases (hvisEq x).mp hx with h0 | h0
              · exact Or.inl h0
              · exact Or.inr (List.mem_append_left _ h0)
          · rintro (h0 | h0)
            · exact Or.inr ((hvisEq x).mpr (Or.inl h0))
            · rcases List.mem_append.mp h0 with h1 | h1
              · exact Or.inr ((hvisEq x).mpr (Or.inr h1))
              · simp at h1
                exact Or.inl h1
        have hnodup2 : ((acc ++ [(cand, path ++ [t])]).map Prod.fst).Nodup := by
          rw [List.map_append]
          have hcnacc : cand ∉ acc.map Prod.fst :=
            fun hmem => hnv ((hvisEq cand).mpr (Or.inr hmem))
          simp [List.nodup_append, hnodup, hcnacc]
        have hspec2 : ∀ ent ∈ acc ++ [(cand, path ++ [t])],
            ent.1 ∉ vis0 ∧ ent.1 ≠ e ∧ ∃ t2, ent.2 = path ++ [t2] ∧ edgeOf g t2 c ent.1 := by
          intro ent hent
          rcases List.mem_append.mp hent with h1 | h1
          · exact hspec ent h1
          · simp at h1
            subst h1
            exact ⟨fun h0 => hnv ((hvisEq cand).mpr (Or.inl h0)), hce,
              ⟨t, rfl, hct0.1, hu, hct0.2⟩⟩
        have ihh := ih (acc ++ [(cand, path ++ [t])]) (cand :: vis) hCands2 hvisEq2 hnodup2 hspec2
        cases hre : expand e path rest (acc ++ [(cand, path ++ [t])]) (cand :: vis) with
        | error r =>
          rw [hre] at ihh
          exact ihh
        | ok pr =>
          obtain ⟨accF, visF⟩ := pr
          rw [hre] at ihh
          obtain ⟨hv, hn, hs, ⟨pre0, hpre⟩, hcov⟩ := ihh
          have hmono : ∀ x ∈ cand :: vis, x ∈ visF := by
            intro x hx
            rcases (hvisEq2 x).mp hx with h0 | h0
            · exact (hv x).mpr (Or.inl h0)
            · refine (hv x).mpr (Or.inr ?_)
              rw [hpre, List.map_append]
              exact List.mem_append_left _ h0
          refine ⟨hv, hn, hs, ⟨(cand, path ++ [t]) :: pre0, by rw [hpre]; simp⟩, ?_⟩
          intro ct hct hu2
          rcases List.mem_cons.mp hct with rfl | h1
          · exact hmono cand (List.mem_cons_self _ _)
          · exact hcov ct h1 hu2
    · rw [if_neg hcond]
      have hcv : isURI cand = true → cand ∈ vis := by
        intro hu2
        by_contra hnv
        exact hcond (by rw [Bool.and_eq_true, decide_eq_true_eq]; exact ⟨hu2, hnv⟩)
      have ihh := ih acc vis hCands2 hvisEq hnodup hspec
      cases hre : expand e path rest acc vis with
      | error r =>
        rw [hre] at ihh
        exact ihh
      | ok pr =>
        obtain ⟨accF, visF⟩ := pr
        rw [hre] at ihh
        obtain ⟨hv, hn, hs, ⟨pre0, hpre⟩, hcov⟩ := ihh
        have hmono : ∀ x ∈ vis, x ∈ visF := by
          intro x hx
          rcases (hvisEq x).mp hx with h0 | h0
          · exact (hv x).mpr (Or.inl h0)
          · refine (hv x).mpr (Or.inr ?_)
            rw [hpre, List.map_append]
            exact List.mem_append_left _ h0
        refine ⟨hv, hn, hs, ⟨pre0, hpre⟩, ?_⟩
        intro ct hct hu2
        rcases List.mem_cons.mp hct with rfl | h1
        · exact hmono cand (hcv hu2)
        · exact hcov ct h1 hu2

/-- At a nonempty queue the level decomposition starts at the head entry's
path length. -/
theorem levels_head {g : Graph} {s e c : Node} {path : List Triple}
    {rest : List (Node × List Triple)} {vis : List Node}
    (inv : BfsInv g s e ((c, path) :: rest) vis) :
    ∃ A0 B, rest = A0 ++ B ∧
      (∀ ent ∈ A0, ent.2.length = path.length) ∧
      (∀ ent ∈ B, ent.2.length = path.length + 1) ∧
      (∀ v, reachIn g s path.length v → v ∈ vis) := by
  rcases inv.levels with h | ⟨l, A, B, hq, hAne, hlenA, hlenB, hfr⟩
  · exact absurd h (List.cons_ne_nil _ _)
  cases A with
  | nil => exact absurd rfl hAne
  | cons a0 A0 =>
    rw [List.cons_append] at hq
    injection hq with h1 h2
    have hl : path.length = l := by
      have := hlenA a0 (List.mem_cons_self _ _)
      rw [← h1] at this
      exact this
    subst hl
    exact ⟨A0, B, h2, fun ent he => hlenA ent (List.mem_cons_of_mem _ he), hlenB, hfr⟩

/-- An early return out of one dequeue of the BFS yields a valid chain of
minimal hop count with pairwise-distinct nodes. -/
theorem bfsStep_found {g : Graph} {s e c : Node} {path : List Triple}
    {rest : List (Node × List Triple)} {vis : List Node} {r : List Triple}
    (inv : BfsInv g s e ((c, path) :: rest) vis)
    (hex : expand e path (candidates g c) [] vis = .error r) :
    isChain g s r e ∧ (∀ q, isChain g s q e → r.length ≤ q.length) ∧ (chainNodes s r).Nodup := by
  have hch : isChain g s path c := inv.chainAll _ (List.mem_cons_self _ _)
  obtain ⟨A0, B, hrest, hlenA, hlenB, hfr⟩ := levels_head inv
  have hes := expand_spec g e c path vis inv.eNot (candidates g c) [] vis
    (fun ct hct => candidate_spec hct) (by simp) (by simp) (by simp)
  rw [hex] at hes
  obtain ⟨t, rfl, hedge⟩ := hes
  have hchr : isChain g s (path ++ [t]) e := isChain_append_single.mpr ⟨c, hch, hedge⟩
  refine ⟨hchr, ?_, ?_⟩
  · intro q hq
    by_contra hlt
    push_neg at hlt
    simp only [List.length_append, List.length_cons, List.length_nil] at hlt
    exact inv.eNot (hfr e ⟨q, hq, by omega⟩)
  · rw [chainNodes_append_single, lastNode_chain hch, stepTo_edge hedge]
    have h1 : (chainNodes s path).Nodup := inv.nodupAll _ (List.mem_cons_self _ _)
    have h2 : e ∉ chainNodes s path :=
      fun hmem => inv.eNot (inv.nodesVis _ (List.mem_cons_self _ _) e hmem)
    simp [List.nodup_append, h1, h2]

/-- A dequeue that does not return re-establishes the loop invariant on the
advanced queue and grown visited set. -/
theorem bfsStep_inv {g : Graph} {s e c : Node} {path : List Triple}
    {rest news : List (Node × List Triple)} {vis vis2 : List Node}
    (inv : BfsInv g s e ((c, path) :: rest) vis)
    (hex : expand e path (candidates g c) [] vis = .ok (news, vis2)) :
    BfsInv g s e (rest ++ news) vis2 := by
  have hch : isChain g s path c := inv.chainAll _ (List.mem_cons_self _ _)
  obtain ⟨A0, B, hrest, hlenA, hlenB, hfr⟩ := levels_head inv
  have hes := expand_spec g e c path vis inv.eNot (candidates g c) [] vis
    (fun ct hct => candidate_spec hct) (by simp) (by simp) (by simp)
  rw [hex] at hes
  obtain ⟨hvE, hnN, hsN, -, hcov⟩ := hes
  have hsub : ∀ x ∈ vis, x ∈ vis2 := fun x hx => (hvE x).mpr (Or.inl hx)
  have hrestVis : ∀ ent ∈ rest, ent.1 ∈ vis :=
    fun ent he => inv.visAll ent (List.mem_cons_of_mem _ he)
  have eNot2 : e ∉ vis2 := by
    intro hmem
    rcases (hvE e).mp hmem with h0 | h0
    · exact inv.eNot h0
    · obtain ⟨ent, hent, he1⟩ := List.mem_map.mp h0
      exact (hsN ent hent).2.1 he1
  have chainAll2 : ∀ ent ∈ rest ++ news, isChain g s ent.2 ent.1 := by
    intro ent hent
    rcases List.mem_append.mp hent with h1 | h1
    · exact inv.chainAll ent (List.mem_cons_of_mem _ h1)
    · obtain ⟨-, -, t, h2, hedge⟩ := hsN ent h1
      rw [h2]
      exact isChain_append_single.mpr ⟨c, hch, hedge⟩
  have minAll2 : ∀ ent ∈ rest ++ news, ∀ q, isChain g s q ent.1 → ent.2.length ≤ q.length := by
    intro ent hent q hq
    rcases List.mem_append.mp hent with h1 | h1
    · exact inv.minAll ent (List.mem_cons_of_mem _ h1) q hq
    · obtain ⟨hnv0, -, t, h2, hedge⟩ := hsN ent h1
      rw [h2]
      simp only [List.length_append, List.length_cons, List.length_nil]
      by_contra hlt
      push_neg at hlt
      exact hnv0 (hfr ent.1 ⟨q, hq, by omega⟩)
  have visAll2 : ∀ ent ∈ rest ++ news, ent.1 ∈ vis2 := by
    intro ent hent
    rcases List.mem_append.mp hent with h1 | h1
    · exact hsub _ (hrestVis ent h1)
    · exact (hvE ent.1).mpr (Or.inr (List.mem_map.mpr ⟨ent, h1, rfl⟩))
  have nodupAll2 : ∀ ent ∈ rest ++ news, (chainNodes s ent.2).Nodup := by
    intro ent hent
    rcases List.mem_append.mp hent with h1 | h1
    · exact inv.nodupAll ent (List.mem_cons_of_mem _ h1)
    · obtain ⟨hnv0, -, t, h2, hedge⟩ := hsN ent h1
      rw [h2, chainNodes_append_single, lastNode_chain hch, stepTo_edge hedge]
      have h3 := inv.nodupAll _ (List.mem_cons_self (c, path) rest)
      have h4 : ent.1 ∉ chainNodes s path :=
        fun hmem => hnv0 (inv.nodesVis _ (List.mem_cons_self _ _) ent.1 hmem)
      simp [List.nodup_append, h3, h4]
  have nodesVis2 : ∀ ent ∈ rest ++ news, ∀ x ∈ chainNodes s ent.2, x ∈ vis2 := by
    intro ent hent x hx
    rcases List.mem_append.mp hent with h1 | h1
    · exact hsub _ (inv.nodesVis ent (List.mem_cons_of_mem _ h1) x hx)
    · obtain ⟨hnv0, -, t, h2, hedge⟩ := hsN ent h1
      rw [h2, chainNodes_append_single, lastNode_chain hch, stepTo_edge hedge] at hx
      rcases List.mem_append.mp hx with h3 | h3
      · exact hsub _ (inv.nodesVis _ (List.mem_cons_self _ _) x h3)
      · rw [List.mem_singleton] at h3
        subst h3
        exact (hvE ent.1).mpr (Or.inr (List.mem_map.mpr ⟨ent, h1, rfl⟩))
  have qNodup2 : ((rest ++ news).map Prod.fst).Nodup := by
    rw [List.map_append]
    have h1 : (rest.map Prod.fst).Nodup := by
      have h0 := inv.qNodup
      rw [List.map_cons] at h0
      exact h0.of_cons
    have hdisj : ∀ x ∈ rest.map Prod.fst, x ∉ news.map Prod.fst := by
      intro x hx hx2
      obtain ⟨ent, hent, he⟩ := List.mem_map.mp hx
      obtain ⟨ent2, hent2, he2⟩ := List.mem_map.mp hx2
      apply (hsN ent2 hent2).1
      rw [he2, ← he]
      exact hrestVis ent hent
    rw [List.nodup_append]
    exact ⟨h1, hnN, hdisj⟩
  have closed2 : ∀ v ∈ vis2, v ∉ (rest ++ news).map Prod.fst → ∀ w, stepRel g v w → w ∈ vis2 := by
    intro v hv hnq w hw
    rcases (hvE v).mp hv with h0 | h0
    · by_cases hvc : v = c
      · subst hvc
        obtain ⟨t0, hedge0⟩ := hw
        obtain ⟨t1, hct1⟩ := stepRel_candidate ⟨t0, hedge0⟩
        exact hcov (w, t1) hct1 hedge0.2.1
      · have hnq2 : v ∉ ((c, path) :: rest).map Prod.fst := by
          rw [List.map_cons]
          intro hmem
          rcases List.mem_cons.mp hmem with h1 | h1
          · exact hvc h1
          · exact hnq (by rw [List.map_append]; exact List.mem_append_left _ h1)
        exact hsub _ (inv.closed v h0 hnq2 w hw)
    · exact absurd (by rw [List.map_append]; exact List.mem_append_right _ h0) hnq
  have hlenNews : ∀ ent ∈ news, ent.2.length = path.length + 1 := by
    intro ent hent
    obtain ⟨-, -, t, h2, -⟩ := hsN ent hent
    rw [h2]
    simp
  have levels2 : rest ++ news = [] ∨ ∃ l A B2, rest ++ news = A ++ B2 ∧ A ≠ [] ∧
      (∀ ent ∈ A, ent.2.length = l) ∧ (∀ ent ∈ B2, ent.2.length = l + 1) ∧
      (∀ v, reachIn g s l v → v ∈ vis2) := by
    by_cases hqe : rest ++ news = []
    · exact Or.inl hqe
    right
    cases A0 with
    | cons a1 A1 =>
      refine ⟨path.length, a1 :: A1, B ++ news, ?_, List.cons_ne_nil _ _, hlenA, ?_, ?_⟩
      · rw [hrest, List.append_assoc]
      · intro ent hent
        rcases List.mem_append.mp hent with h1 | h1
        · exact hlenB ent h1
        · exact hlenNews ent h1
      · exact fun v hv => hsub _ (hfr v hv)
    | nil =>
      rw [List.nil_append] at hrest
      have hlenAll : ∀ ent ∈ rest ++ news, ent.2.length = path.length + 1 := by
        intro ent hent
        rcases List.mem_append.mp hent with h1 | h1
        · exact hlenB ent (hrest ▸ h1)
        · exact hlenNews ent h1
      refine ⟨path.length + 1, rest ++ news, [], by simp, hqe, hlenAll, ?_, ?_⟩
      · intro ent hent
        exact absurd hent (List.not_mem_nil ent)
      · intro w hw
        obtain ⟨q, hq, hql⟩ := hw
        by_cases hqs : q.length ≤ path.length
        · exact hsub _ (hfr w ⟨q, hq, hqs⟩)
        rcases List.eq_nil_or_concat q with rfl | ⟨q0, t, rfl⟩
        · simp at hqs
        rw [List.concat_eq_append] at hq hql
        obtain ⟨u, hq0, hedge⟩ := isChain_append_single.mp hq
        have hq0len : q0.length ≤ path.length := by
          rw [List.length_append] at hql
          simp at hql
          omega
        have hu : u ∈ vis := hfr u ⟨q0, hq0, hq0len⟩
        have hunq : u ∉ (rest ++ news).map Prod.fst := by
          intro hmem
          obtain ⟨ent, hent, he⟩ := List.mem_map.mp hmem
          have hl1 : ent.2.length = path.length + 1 := hlenAll ent hent
          have hl2 : ent.2.length ≤ q0.length := minAll2 ent hent q0 (by rw [he]; exact hq0)
          omega
        exact closed2 u (hsub u hu) hunq w ⟨t, hedge⟩
  exact ⟨hsub s inv.sVis, eNot2, chainAll2, minAll2, visAll2, nodupAll2, nodesVis2,
    qNodup2, closed2, levels2⟩

/-- The invariant holds at BFS start: queue [(s, [])], visited [s]. -/
theorem bfsInv_init {g : Graph} {s e : Node} (hne : s ≠ e) :
    BfsInv g s e [(s, [])] [s] := by
  refine ⟨List.mem_singleton_self s, ?_, ?_, ?_, ?_, ?_, ?_, ?_, ?_, ?_⟩
  · rw [List.mem_singleton]
    exact fun h => hne h.symm
  · intro ent hent
    rw [List.mem_singleton] at hent
    subst hent
    exact rfl
  · intro ent hent q hq
    rw [List.mem_singleton] at hent
    subst hent
    simp
  · intro ent hent
    rw [List.mem_singleton] at hent
    subst hent
    exact List.mem_singleton_self s
  · intro ent hent
    rw [List.mem_singleton] at hent
    subst hent
    simp [chainNodes]
  · intro ent hent x hx
    rw [List.mem_singleton] at hent
    subst hent
    simp only [chainNodes, List.mem_singleton] at hx
    subst hx
    exact List.mem_singleton_self _
  · simp
  · intro v hv hnq w hw
    rw [List.mem_singleton] at hv
    subst hv
    exact absurd (by simp) hnq
  · right
    refine ⟨0, [(s, [])], [], by simp, List.cons_ne_nil _ _, ?_, ?_, ?_⟩
    · intro ent hent
      rw [List.mem_singleton] at hent
      subst hent
      rfl
    · intro ent hent
      exact absurd hent (List.not_mem_nil ent)
    · intro v hv
      obtain ⟨q, hq, hql⟩ := hv
      rw [Nat.le_zero, List.length_eq_zero] at hql
      subst hql
      rw [List.mem_singleton]
      exact hq.symm

/-- Soundness and minimality: a path returned by the BFS loop under the
invariant is a valid chain of minimal hop count with distinct nodes. -/
theorem bfsLoop_some_spec {g : Graph} {s e : Node} :
    ∀ (fuel : Nat) (queue : List (Node × List Triple)) (vis : List Node) (p : List Triple),
      BfsInv g s e queue vis →
      bfsLoop g e fuel queue vis = some (some p) →
      isChain g s p e ∧ (∀ q, isChain g s q e → p.length ≤ q.length) ∧
        (chainNodes s p).Nodup := by
  intro fuel
  induction fuel with
  | zero =>
    intro queue vis p _ h
    exact absurd h (by simp [bfsLoop])
  | succ n ih =>
    intro queue vis p inv h
    cases queue with
    | nil => simp [bfsLoop] at h
    | cons hd rest =>
      obtain ⟨c, path⟩ := hd
      simp only [bfsLoop] at h
      cases hex : expand e path (candidates g c) [] vis with
      | error r =>
        rw [hex] at h
        simp only [Option.some.injEq] at h
        subst h
        exact bfsStep_found inv hex
      | ok pr =>
        obtain ⟨news, vis2⟩ := pr
        rw [hex] at h
        exact ih (rest ++ news) vis2 p (bfsStep_inv inv hex) h

/-- Completeness: the BFS loop running its queue dry under the invariant
means the end node is not connected to the start. -/
theorem bfsLoop_none_spec {g : Graph} {s e : Node} :
    ∀ (fuel : Nat) (queue : List (Node × List Triple)) (vis : List Node),
      BfsInv g s e queue vis →
      bfsLoop g e fuel queue vis = some none →
      ∀ q, ¬ isChain g s q e := by
  intro fuel
  induction fuel with
  | zero =>
    intro queue vis _ h
    exact absurd h (by simp [bfsLoop])
  | succ n ih =>
    intro queue vis inv h
    cases queue with
    | nil =>
      intro q hq
      have hcl : ∀ v ∈ vis, ∀ w, stepRel g v w → w ∈ vis :=
        fun v hv => inv.closed v hv (by simp)
      exact inv.eNot (chain_closure hcl hq inv.sVis)
    | cons hd rest =>
      obtain ⟨c, path⟩ := hd
      simp only [bfsLoop] at h
      cases hex : expand e path (candidates g c) [] vis with
      | error r =>
        rw [hex] at h
        simp at h
      | ok pr =>
        obtain ⟨news, vis2⟩ := pr
        rw [hex] at h
        exact ih (rest ++ news) vis2 (bfsStep_inv inv hex) h

/-- Each enqueue consumes one unvisited graph node, so the accumulated
entries plus the unvisited-node count never grow across one scan. -/
theorem expand_card (g : Graph) (e : Node) (path : List Triple) :
    ∀ (cands : List (Node × Triple)) (acc : List (Node × List Triple)) (vis : List Node)
      (accF : List (Node × List Triple)) (visF : List Node),
      (∀ ct ∈ cands, ct.1 ∈ nodesOfGraph g) →
      expand e path cands acc vis = .ok (accF, visF) →
      accF.length + (nodesOfGraph g \ visF.toFinset).card ≤
        acc.length + (nodesOfGraph g \ vis.toFinset).card := by
  intro cands
  induction cands with
  | nil =>
    intro acc vis accF visF _ h
    simp only [expand, Except.ok.injEq, Prod.mk.injEq] at h
    obtain ⟨rfl, rfl⟩ := h
    exact Nat.le_refl _
  | cons ct0 rest ih =>
    obtain ⟨cand, t⟩ := ct0
    intro acc vis accF visF hmem h
    simp only [expand] at h
    by_cases hcond : (isURI cand && decide (cand ∉ vis)) = true
    · rw [if_pos hcond] at h
      rw [Bool.and_eq_true, decide_eq_true_eq] at hcond
      by_cases hce : cand = e
      · rw [if_pos hce] at h
        exact absurd h (by simp)
      · rw [if_neg hce] at h
        have hstep := ih _ _ _ _ (fun ct hct => hmem ct (List.mem_cons_of_mem _ hct)) h
        have hcn : cand ∈ nodesOfGraph g \ vis.toFinset := by
          rw [Finset.mem_sdiff, List.mem_toFinset]
          exact ⟨hmem (cand, t) (List.mem_cons_self _ _), hcond.2⟩
        have hcard : (nodesOfGraph g \ (cand :: vis).toFinset).card =
            (nodesOfGraph g \ vis.toFinset).card - 1 := by
          rw [List.toFinset_cons, Finset.sdiff_insert, Finset.card_erase_of_mem hcn]
        have hpos : 1 ≤ (nodesOfGraph g \ vis.toFinset).card :=
          Finset.card_pos.mpr ⟨cand, hcn⟩
        rw [hcard, List.length_append] at hstep
        simp only [List.length_cons, List.length_nil] at hstep
        omega
    · rw [if_neg hcond] at h
      exact ih _ _ _ _ (fun ct hct => hmem ct (List.mem_cons_of_mem _ hct)) h

/-- With fuel exceeding queue length plus unvisited-node count, the BFS
loop never exhausts its fuel. -/
theorem bfsLoop_enough_fuel (g : Graph) (e : Node) :
    ∀ (fuel : Nat) (queue : List (Node × List Triple)) (vis : List Node),
      queue.length + (nodesOfGraph g \ vis.toFinset).card < fuel →
      bfsLoop g e fuel queue vis ≠ none := by
  intro fuel
  induction fuel with
  | zero =>
    intro queue vis h
    exact absurd h (Nat.not_lt_zero _)
  | succ n ih =>
    intro queue vis h
    cases queue with
    | nil => simp [bfsLoop]
    | cons hd rest =>
      obtain ⟨c, path⟩ := hd
      simp only [bfsLoop]
      cases hex : expand e path (candidates g c) [] vis with
      | error r => simp
      | ok pr =>
        obtain ⟨news, vis2⟩ := pr
        have hcard := expand_card g e path (candidates g c) [] vis news vis2
          (fun ct hct => candidate_node_mem hct) hex
        apply ih
        rw [List.length_append]
        simp only [List.length_nil, Nat.zero_add] at hcard
        simp only [List.length_cons] at h
        omega

/-- start == end returns the empty path without searching. -/
theorem shortest_path_refl (g : Graph) (a : Node) : _find_shortest_path g a a = some [] := by
  unfold _find_shortest_path
  rw [if_pos rfl]

/-- Any path returned by _find_shortest_path between distinct nodes is a
valid undirected chain of minimal hop count whose visited nodes are
pairwise distinct. -/
theorem shortest_path_some_spec {g : Graph} {s e : Node} {p : List Triple}
    (hne : s ≠ e) (h : _find_shortest_path g s e = some p) :
    isChain g s p e ∧ (∀ q, isChain g s q e → p.length ≤ q.length) ∧
      (chainNodes s p).Nodup := by
  unfold _find_shortest_path at h
  rw [if_neg hne] at h
  cases hb : bfsLoop g e ((nodesOfGraph g).card + 2) [(s, [])] [s] with
  | none =>
    rw [hb] at h
    exact absurd h (by simp)
  | some r =>
    rw [hb] at h
    cases r with
    | none => exact absurd h (by simp)
    | some p2 =>
      simp only [Option.some.injEq] at h
      subst h
      exact bfsLoop_some_spec _ _ _ _ (bfsInv_init hne) hb

/-- When no undirected chain connects s to e, _find_shortest_path returns
None. -/
theorem shortest_path_none_of_no_chain {g : Graph} {s e : Node}
    (h : ¬ ∃ q, isChain g s q e) : _find_shortest_path g s e = none := by
  have hne : s ≠ e := by
    intro he
    subst he
    exact h ⟨[], rfl⟩
  cases hp : _find_shortest_path g s e with
  | none => rfl
  | some p => exact absurd ⟨p, (shortest_path_some_spec hne hp).1⟩ h

/-- When some undirected chain connects s to e, _find_shortest_path finds
a path. -/
theorem shortest_path_complete {g : Graph} {s e : Node} (hne : s ≠ e)
    {q : List Triple} (hq : isChain g s q e) :
    ∃ p, _find_shortest_path g s e = some p := by
  unfold _find_shortest_path
  rw [if_neg hne]
  cases hb : bfsLoop g e ((nodesOfGraph g).card + 2) [(s, [])] [s] with
  | none =>
    exfalso
    refine bfsLoop_enough_fuel g e ((nodesOfGraph g).card + 2) [(s, [])] [s] ?_ hb
    have h1 : (nodesOfGraph g \ [s].toFinset).card ≤ (nodesOfGraph g).card :=
      Finset.card_le_card Finset.sdiff_subset
    simp only [List.length_cons, List.length_nil]
    omega
  | some r =>
    cases r with
    | none => exact absurd hq (bfsLoop_none_spec _ _ _ (bfsInv_init hne) hb q)
    | some p => exact ⟨p, rfl⟩

/-! Resolver lemmas. -/

theorem foldl_pres {α β : Type} (P : β → Prop) (f : β → α → β)
    (hstep : ∀ b a, P b → P (f b a)) :
    ∀ (l : List α) (b : β), P b → P (l.foldl f b) := by
  intro l
  induction l with
  | nil => intro b h; exact h
  | cons a tl ih => intro b h; exact ih _ (hstep b a h)

theorem mem_addLabelEntity {g : Graph} {found : List Node} {lab : String} {x : Node} :
    x ∈ addLabelEntity g found lab ↔ x ∈ found ∨
      (graph_value_subj g rdfs_label (.lit lab) = some x ∧
        nodeTruthy x = true ∧ isURI x = true) := by
  unfold addLabelEntity
  split
  · rename_i subject hv
    rw [hv]
    split
    · rename_i hc
      rw [mem_sinsert]
      rw [Bool.and_eq_true] at hc
      constructor
      · rintro (h | rfl)
        · exact Or.inl h
        · exact Or.inr ⟨rfl, hc.1, hc.2⟩
      · rintro (h | ⟨he, -, -⟩)
        · exact Or.inl h
        · injection he with he2
          exact Or.inr he2.symm
    · rename_i hc
      constructor
      · exact Or.inl
      · rintro (h | ⟨he, ht, hu⟩)
        · exact h
        · injection he with he2
          subst he2
          exact absurd (by rw [Bool.and_eq_true]; exact ⟨ht, hu⟩) hc
  · rename_i hv
    rw [hv]
    simp

theorem mem_foldl_addLabel {g : Graph} :
    ∀ (labs : List String) (found : List Node) (x : Node),
      x ∈ labs.foldl (addLabelEntity g) found ↔ x ∈ found ∨
        ∃ lab ∈ labs, graph_value_subj g rdfs_label (.lit lab) = some x ∧
          nodeTruthy x = true ∧ isURI x = true := by
  intro labs
  induction labs with
  | nil => simp
  | cons lab tl ih =>
    intro found x
    rw [List.foldl_cons, ih, mem_addLabelEntity]
    constructor
    · rintro ((h | h) | ⟨lab2, h1, h2⟩)
      · exact Or.inl h
      · exact Or.inr ⟨lab, List.mem_cons_self _ _, h⟩
      · exact Or.inr ⟨lab2, List.mem_cons_of_mem _ h1, h2⟩
    · rintro (h | ⟨lab2, h1, h2⟩)
      · exact Or.inl (Or.inl h)
      · rcases List.mem_cons.mp h1 with rfl | h3
        · exact Or.inl (Or.inr h2)
        · exact Or.inr ⟨lab2, h3, h2⟩

theorem mem_foldl_syn {ql : String} {g : Graph} :
    ∀ (tbl : List (String × List String)) (found : List Node) (x : Node),
      x ∈ tbl.foldl
          (fun found kv =>
            if strIn kv.1 ql then kv.2.foldl (addLabelEntity g) found else found) found ↔
        x ∈ found ∨ ∃ kv ∈ tbl, strIn kv.1 ql = true ∧
          ∃ lab ∈ kv.2, graph_value_subj g rdfs_label (.lit lab) = some x ∧
            nodeTruthy x = true ∧ isURI x = true := by
  intro tbl
  induction tbl with
  | nil => simp
  | cons kv0 tl ih =>
    intro found x
    rw [List.foldl_cons]
    by_cases hc : strIn kv0.1 ql = true
    · rw [if_pos hc, ih, mem_foldl_addLabel]
      constructor
      · rintro ((h | ⟨lab, h1, h2⟩) | ⟨kv2, h1, h2⟩)
        · exact Or.inl h
        · exact Or.inr ⟨kv0, List.mem_cons_self _ _, hc, lab, h1, h2⟩
        · exact Or.inr ⟨kv2, List.mem_cons_of_mem _ h1, h2⟩
      · rintro (h | ⟨kv2, h1, h2⟩)
        · exact Or.inl (Or.inl h)
        · rcases List.mem_cons.mp h1 with rfl | h4
          · exact Or.inl (Or.inr h2.2)
          · exact Or.inr ⟨kv2, h4, h2⟩
    · rw [if_neg hc, ih]
      constructor
      · rintro (h | ⟨kv2, h1, h2⟩)
        · exact Or.inl h
        · exact Or.inr ⟨kv2, List.mem_cons_of_mem _ h1, h2⟩
      · rintro (h | ⟨kv2, h1, h2⟩)
        · exact Or.inl h
        · rcases List.mem_cons.mp h1 with rfl | h4
          · exact absurd h2.1 hc
          · exact Or.inr ⟨kv2, h4, h2⟩

theorem mem_synonymPass {ql : String} {g : Graph} {x : Node} :
    x ∈ synonymPass ql g ↔
      ∃ kv ∈ synonym_map, strIn kv.1 ql = true ∧
        ∃ lab ∈ kv.2, graph_value_subj g rdfs_label (.lit lab) = some x ∧
          nodeTruthy x = true ∧ isURI x = true := by
  unfold synonymPass
  rw [mem_foldl_syn]
  simp

theorem synonymPass_uri {ql : String} {g : Graph} :
    ∀ x ∈ synonymPass ql g, isURI x = true := by
  intro x hx
  obtain ⟨kv, -, -, lab, -, -, -, hu⟩ := mem_synonymPass.mp hx
  exact hu

theorem synonymPass_nodup {ql : String} {g : Graph} : (synonymPass ql g).Nodup := by
  unfold synonymPass
  apply foldl_pres (fun l : List Node => l.Nodup) _ ?_ synonym_map [] List.nodup_nil
  intro b kv hb
  by_cases hc : strIn kv.1 ql = true
  · rw [if_pos hc]
    apply foldl_pres (fun l : List Node => l.Nodup) _ ?_ kv.2 b hb
    intro b2 lab h2
    unfold addLabelEntity
    split
    · split
      · rename_i subject _ _
        exact sinsert_nodup h2 subject
      · exact h2
    · exact h2
  · rw [if_neg hc]
    exact hb

theorem directPass_uri {ql : String} {g : Graph} {found0 : List Node}
    (h0 : ∀ x ∈ found0, isURI x = true) :
    ∀ x ∈ directPass ql g found0, isURI x = true := by
  unfold directPass
  apply foldl_pres (fun l : List Node => ∀ x ∈ l, isURI x = true) _ ?_ _ found0 h0
  intro found t hf
  by_cases h1 : (isURI t.1 && isLit t.2.2) = true
  · rw [if_pos h1]
    by_cases h2 : strIn (strLower (nodeStr t.2.2)) ql = true
    · rw [if_pos h2]
      intro x hx
      rcases mem_sinsert.mp hx with h3 | h3
      · exact hf x h3
      · subst h3
        rw [Bool.and_eq_true] at h1
        exact h1.1
    · rw [if_neg h2]
      exact hf
  · rw [if_neg h1]
    exact hf

theorem directPass_nodup {ql : String} {g : Graph} {found0 : List Node}
    (h0 : found0.Nodup) : (directPass ql g found0).Nodup := by
  unfold directPass
  apply foldl_pres (fun l : List Node => l.Nodup) _ ?_ _ found0 h0
  intro found t hf
  by_cases h1 : (isURI t.1 && isLit t.2.2) = true
  · rw [if_pos h1]
    by_cases h2 : strIn (strLower (nodeStr t.2.2)) ql = true
    · rw [if_pos h2]
      exact sinsert_nodup hf t.1
    · rw [if_neg h2]
      exact hf
  · rw [if_neg h1]
    exact hf

/-- Every resolved entity is a URIRef. -/
theorem identify_uri {q : String} {g : Graph} :
    ∀ x ∈ _identify_all_entities q g, isURI x = true := by
  unfold _identify_all_entities
  exact directPass_uri synonymPass_uri

/-- The resolved entity list is duplicate-free (Python set semantics). -/
theorem identify_nodup {q : String} {g : Graph} : (_identify_all_entities q g).Nodup := by
  unfold _identify_all_entities
  exact directPass_nodup synonymPass_nodup

/-! Pair loop lemmas. -/

theorem loopPairs_cons (g : Graph) (pf : Option (List Triple)) (pr : Node × Node)
    (rest : List (Node × Node)) :
    loopPairs g pf (pr :: rest) =
      (if optTruthy (_find_shortest_path g pr.1 pr.2) = true then _find_shortest_path g pr.1 pr.2
       else loopPairs g (_find_shortest_path g pr.1 pr.2) rest) := rfl

theorem loopPairsTrace_cons (g : Graph) (pr : Node × Node) (rest : List (Node × Node)) :
    loopPairsTrace g (pr :: rest) =
      pr :: (if optTruthy (_find_shortest_path g pr.1 pr.2) = true then []
             else loopPairsTrace g rest) := rfl

theorem loopPairs_all_none {g : Graph} :
    ∀ (l : List (Node × Node)), (∀ pr ∈ l, _find_shortest_path g pr.1 pr.2 = none) →
      loopPairs g none l = none ∧ loopPairsTrace g l = l := by
  intro l
  induction l with
  | nil => exact fun _ => ⟨rfl, rfl⟩
  | cons pr rest ih =>
    intro h
    have hpr := h pr (List.mem_cons_self _ _)
    have ihh := ih (fun pr2 h2 => h pr2 (List.mem_cons_of_mem _ h2))
    constructor
    · rw [loopPairs_cons, hpr, if_neg (by decide)]
      exact ihh.1
    · rw [loopPairsTrace_cons, hpr, if_neg (by decide), ihh.2]

theorem loopPairs_first {g : Graph} :
    ∀ (l1 : List (Node × Node)) (pr : Node × Node) (l2 : List (Node × Node)) (p : List Triple),
      (∀ pr2 ∈ l1, _find_shortest_path g pr2.1 pr2.2 = none) →
      _find_shortest_path g pr.1 pr.2 = some p → p ≠ [] →
      loopPairs g none (l1 ++ pr :: l2) = some p ∧
        loopPairsTrace g (l1 ++ pr :: l2) = l1 ++ [pr] := by
  intro l1
  induction l1 with
  | nil =>
    intro pr l2 p h0 hp hne
    have htr : optTruthy (_find_shortest_path g pr.1 pr.2) = true := by
      rw [hp]
      cases p with
      | nil => exact absurd rfl hne
      | cons a l => rfl
    constructor
    · rw [List.nil_append, loopPairs_cons, if_pos htr]
      exact hp
    · rw [List.nil_append, loopPairsTrace_cons, if_pos htr]
      rfl
  | cons pr1 rest ih =>
    intro pr l2 p h0 hp hne
    have hpr1 := h0 pr1 (List.mem_cons_self _ _)
    have ihh := ih pr l2 p (fun pr2 h2 => h0 pr2 (List.mem_cons_of_mem _ h2)) hp hne
    constructor
    · rw [List.cons_append, loopPairs_cons, hpr1, if_neg (by decide)]
      exact ihh.1
    · rw [List.cons_append, loopPairsTrace_cons, hpr1, if_neg (by decide), ihh.2]
      rfl

theorem loopPairs_some_src {g : Graph} :
    ∀ (l : List (Node × Node)) (pf : Option (List Triple)) (p : List Triple),
      optTruthy pf = false → loopPairs g pf l = some p → p ≠ [] →
      ∃ pr ∈ l, _find_shortest_path g pr.1 pr.2 = some p := by
  intro l
  induction l with
  | nil =>
    intro pf p hpf h hne
    rw [show loopPairs g pf [] = pf from rfl] at h
    subst h
    cases p with
    | nil => exact absurd rfl hne
    | cons a l2 => exact absurd hpf (by simp [optTruthy])
  | cons pr rest ih =>
    intro pf p hpf h hne
    rw [loopPairs_cons] at h
    by_cases hc : optTruthy (_find_shortest_path g pr.1 pr.2) = true
    · rw [if_pos hc] at h
      exact ⟨pr, List.mem_cons_self _ _, h⟩
    · rw [if_neg hc] at h
      obtain ⟨pr2, h2, h3⟩ := ih _ p (eq_false_of_ne_true hc) h hne
      exact ⟨pr2, List.mem_cons_of_mem _ h2, h3⟩

/-- A search between distinct endpoints never returns the empty path. -/
theorem shortest_path_ne_some_nil {g : Graph} {a b : Node} (hab : a ≠ b) :
    _find_shortest_path g a b ≠ some [] := by
  intro h
  exact hab (shortest_path_some_spec hab h).1

/-! Lemmas about the permutation pair enumeration. -/

theorem perms2_mem {α : Type} {l : List α} {pr : α × α} (h : pr ∈ perms2 l) :
    ∃ i j, i ≠ j ∧ ∃ (hi : i < l.length) (hj : j < l.length), pr = (l[i], l[j]) := by
  unfold perms2 at h
  rw [List.mem_flatten] at h
  obtain ⟨sub, hsub, hmem⟩ := h
  rw [List.mem_map] at hsub
  obtain ⟨ia, hia, rfl⟩ := hsub
  rw [List.mem_map] at hmem
  obtain ⟨jb, hjb, rfl⟩ := hmem
  rw [List.mem_filter, decide_eq_true_eq] at hjb
  obtain ⟨hjb2, hne⟩ := hjb
  obtain ⟨i, a⟩ := ia
  obtain ⟨j, b⟩ := jb
  obtain ⟨hi, ha⟩ := List.mem_enum hia
  obtain ⟨hj, hb⟩ := List.mem_enum hjb2
  exact ⟨i, j, fun he => hne (he ▸ rfl), hi, hj, by rw [← ha, ← hb]⟩

theorem perms2_mem_ne {α : Type} {l : List α} (hnd : l.Nodup) {pr : α × α}
    (h : pr ∈ perms2 l) : pr.1 ≠ pr.2 := by
  obtain ⟨i, j, hij, hi, hj, rfl⟩ := perms2_mem h
  intro he
  apply hij
  have := (List.Nodup.get_inj_iff hnd (i := ⟨i, hi⟩) (j := ⟨j, hj⟩)).mp (by simpa using he)
  exact congrArg Fin.val this

theorem perms2_mem_mem {α : Type} {l : List α} {pr : α × α} (h : pr ∈ perms2 l) :
    pr.1 ∈ l ∧ pr.2 ∈ l := by
  obtain ⟨i, j, hij, hi, hj, rfl⟩ := perms2_mem h
  exact ⟨List.getElem_mem hi, List.getElem_mem hj⟩

/-! Membership characterizations of the fact-collection stage. -/

theorem mem_collectNeighborhood {g : Graph} {e : Node} {t : Triple} :
    t ∈ collectNeighborhood g e ↔ t ∈ g ∧ t.1 = e := by
  unfold collectNeighborhood triples_subj
  rw [mem_foldl_sinsert]
  simp [List.mem_filter]

theorem collectNeighborhood_nodup {g : Graph} {e : Node} :
    (collectNeighborhood g e).Nodup :=
  foldl_sinsert_nodup _ [] List.nodup_nil

theorem mem_nodesInPath {p : List Triple} {x : Node} :
    x ∈ nodesInPath p ↔
      (∃ t ∈ p, t.1 = x) ∨ (∃ t ∈ p, isURI t.2.2 = true ∧ t.2.2 = x) := by
  unfold nodesInPath
  rw [mem_foldl_sinsert]
  simp [List.mem_filter]

theorem mem_collectPathFacts {g : Graph} {p : List Triple} {t : Triple} :
    t ∈ collectPathFacts g p ↔ t ∈ p ∨
      ∃ n ∈ nodesInPath p, t ∈ g ∧ t.1 = n ∧ (t.2.1 = rdfs_label ∨ t.2.1 = rdf_type) := by
  unfold collectPathFacts
  rw [mem_foldl_fold (fun node => (triples_subj g node).filter labelOrTypeB), mem_foldl_sinsert]
  simp only [List.mem_filter, triples_subj, labelOrTypeB, decide_eq_true_eq, Bool.or_eq_true]
  constructor
  · rintro ((h | h) | ⟨n, hn, ⟨hg, h1⟩, h2⟩)
    · exact absurd h (List.not_mem_nil t)
    · exact Or.inl h
    · exact Or.inr ⟨n, hn, hg, h1, h2⟩
  · rintro (h | ⟨n, hn, hg, h1, h2⟩)
    · exact Or.inl (Or.inr h)
    · exact Or.inr ⟨n, hn, ⟨hg, h1⟩, h2⟩

theorem collectPathFacts_nodup {g : Graph} {p : List Triple} :
    (collectPathFacts g p).Nodup :=
  foldl_fold_nodup _ _ _ (foldl_sinsert_nodup _ [] List.nodup_nil)

/-! The claims. -/

/-- Claim C1: for every graph and every pair of distinct entities, if the
path search returns a path then its hop count is minimal over all
undirected connections between start and end in the graph (the witness
instantiates the particular case of a 1-hop edge beside a 2-hop route:
the 1-hop path is returned). -/
theorem C1_shortest_path_minimal (g : Graph) (s e : Node) (p : List Triple)
    (hne : s ≠ e) (h : _find_shortest_path g s e = some p) :
    isChain g s p e ∧ ∀ q, isChain g s q e → p.length ≤ q.length := by
  obtain ⟨h1, h2, -⟩ := shortest_path_some_spec hne h
  exact ⟨h1, h2⟩

/-- Witness for C1 on the fixture with direct edge A→B and 2-hop route
A→C→B: the search returns the 1-hop path, which is a chain no longer than
the 2-hop alternative. -/
theorem C1_shortest_path_minimal_witness :
    nA ≠ nB ∧ _find_shortest_path fixture1 nA nB = some [(nA, rAB, nB)] ∧
      isChain fixture1 nA [(nA, rAB, nB)] nB ∧
      ([(nA, rAB, nB)] : List Triple).length ≤
        ([(nA, rAC, nC), (nC, rCB, nB)] : List Triple).length := by
  have hne : nA ≠ nB := by decide
  have hp : _find_shortest_path fixture1 nA nB = some [(nA, rAB, nB)] := by decide
  obtain ⟨h1, h2⟩ := C1_shortest_path_minimal fixture1 nA nB [(nA, rAB, nB)] hne hp
  have htwo : isChain fixture1 nA [(nA, rAC, nC), (nC, rCB, nB)] nB :=
    ⟨nC, ⟨by decide, by decide, Or.inl ⟨rfl, rfl⟩⟩,
      nB, ⟨by decide, by decide, Or.inl ⟨rfl, rfl⟩⟩, rfl⟩
  exact ⟨hne, hp, h1, h2 _ htwo⟩

/-- Claim C2: whenever the pair search finds a (truthy) path, the
aggregated fact collection holds exactly the path triples plus, for every
entity occurring as subject or object of a path triple, that entity's
label and type triples from the graph, and it contains no duplicates. -/
theorem C2_path_regime_facts (q : String) (g : Graph) (p : List Triple)
    (hp : pathSearch g (_identify_all_entities q g) = some p) (hne : p ≠ []) :
    (∀ t, t ∈ factsFor g (_identify_all_entities q g) (some p) ↔
      (t ∈ p ∨ (t ∈ g ∧ (t.2.1 = rdfs_label ∨ t.2.1 = rdf_type) ∧ isURI t.1 = true ∧
        ∃ t2 ∈ p, t.1 = t2.1 ∨ t.1 = t2.2.2))) ∧
    (factsFor g (_identify_all_entities q g) (some p)).Nodup := by
  have huri : ∀ t ∈ p, isURI t.1 = true ∧ isURI t.2.2 = true := by
    unfold pathSearch at hp
    by_cases hge : 2 ≤ (_identify_all_entities q g).length
    · rw [if_pos hge] at hp
      obtain ⟨pr, hprm, hfind⟩ := loopPairs_some_src (perms2 (_identify_all_entities q g))
        none p rfl hp hne
      have hab : pr.1 ≠ pr.2 := by
        intro he
        rw [he, shortest_path_refl] at hfind
        injection hfind with h2
        exact hne h2.symm
      have hchain := (shortest_path_some_spec hab hfind).1
      exact isChain_triples_uri hchain
        (identify_uri pr.1 (perms2_mem_mem hprm).1)
    · rw [if_neg hge] at hp
      exact absurd hp (by simp)
  cases p with
  | nil => exact absurd rfl hne
  | cons t0 ts =>
    constructor
    · intro t
      show t ∈ collectPathFacts g (t0 :: ts) ↔ _
      rw [mem_collectPathFacts]
      constructor
      · rintro (h | ⟨n, hn, hg, hsub, hlt⟩)
        · exact Or.inl h
        · refine Or.inr ⟨hg, hlt, ?_, ?_⟩
          · rcases mem_nodesInPath.mp hn with ⟨t2, ht2, he⟩ | ⟨t2, ht2, hu2, he⟩
            · rw [hsub, ← he]
              exact (huri t2 ht2).1
            · rw [hsub, ← he]
              exact hu2
          · rcases mem_nodesInPath.mp hn with ⟨t2, ht2, he⟩ | ⟨t2, ht2, hu2, he⟩
            · exact ⟨t2, ht2, Or.inl (by rw [hsub, ← he])⟩
            · exact ⟨t2, ht2, Or.inr (by rw [hsub, ← he])⟩
      · rintro (h | ⟨hg, hlt, hu, t2, ht2, he⟩)
        · exact Or.inl h
        · refine Or.inr ⟨t.1, ?_, hg, rfl, hlt⟩
          rcases he with he | he
          · exact mem_nodesInPath.mpr (Or.inl ⟨t2, ht2, he.symm⟩)
          · exact mem_nodesInPath.mpr (Or.inr ⟨t2, ht2, he ▸ hu, he.symm⟩)
    · exact collectPathFacts_nodup

/-- Witness for C2 on the labelled fixture: question "alpha beta" resolves
X and Y, the 1-hop path X→Y is found, the label triple of X is aggregated,
and the collection is duplicate-free. -/
theorem C2_path_regime_facts_witness :
    pathSearch fixtureLab (_identify_all_entities "alpha beta" fixtureLab) =
        some [(nX, rXY, nY)] ∧
    (nX, rdfs_label, Node.lit "alpha") ∈
        factsFor fixtureLab (_identify_all_entities "alpha beta" fixtureLab)
          (some [(nX, rXY, nY)]) ∧
    (factsFor fixtureLab (_identify_all_entities "alpha beta" fixtureLab)
        (some [(nX, rXY, nY)])).Nodup := by
  have hp : pathSearch fixtureLab (_identify_all_entities "alpha beta" fixtureLab) =
      some [(nX, rXY, nY)] := by decide
  have hc := C2_path_regime_facts "alpha beta" fixtureLab [(nX, rXY, nY)] hp (by decide)
  refine ⟨hp, ?_, hc.2⟩
  refine (hc.1 (nX, rdfs_label, Node.lit "alpha")).mpr (Or.inr ⟨by decide, by decide, by decide, ?_⟩)
  exact ⟨(nX, rXY, nY), List.mem_singleton_self _, Or.inl rfl⟩

/-- Claim C3: with at least two resolved entities the pair loop invokes the
path search on the ordered pairs in permutation-enumeration order and stops
at the first nonempty path; with fewer than two entities no pair is ever
searched. -/
theorem C3_pair_enumeration (g : Graph) (ents : List Node) (hnd : ents.Nodup) :
    (ents.length < 2 → searchedPairs g ents = [] ∧ pathSearch g ents = none) ∧
    (2 ≤ ents.length →
      ((∀ pr ∈ perms2 ents, _find_shortest_path g pr.1 pr.2 = none) →
        searchedPairs g ents = perms2 ents ∧ pathSearch g ents = none) ∧
      (∀ (l1 : List (Node × Node)) (pr : Node × Node) (l2 : List (Node × Node))
          (p : List Triple),
        perms2 ents = l1 ++ pr :: l2 →
        (∀ pr2 ∈ l1, _find_shortest_path g pr2.1 pr2.2 = none) →
        _find_shortest_path g pr.1 pr.2 = some p →
        searchedPairs g ents = l1 ++ [pr] ∧ pathSearch g ents = some p)) := by
  constructor
  · intro hlt
    unfold searchedPairs pathSearch
    rw [if_neg (by omega), if_neg (by omega)]
    exact ⟨rfl, rfl⟩
  · intro hge
    constructor
    · intro hall
      unfold searchedPairs pathSearch
      rw [if_pos hge, if_pos hge]
      obtain ⟨h1, h2⟩ := loopPairs_all_none (perms2 ents) hall
      exact ⟨h2, h1⟩
    · intro l1 pr l2 p hsplit h0 hp
      have hprm : pr ∈ perms2 ents := by
        rw [hsplit]
        exact List.mem_append_right _ (List.mem_cons_self _ _)
      have hne2 : pr.1 ≠ pr.2 := perms2_mem_ne hnd hprm
      have hpne : p ≠ [] := by
        intro he
        subst he
        exact shortest_path_ne_some_nil hne2 hp
      obtain ⟨h1, h2⟩ := loopPairs_first l1 pr l2 p h0 hp hpne
      unfold searchedPairs pathSearch
      rw [if_pos hge, if_pos hge, hsplit]
      exact ⟨h2, h1⟩

/-- Witness for C3: for resolved entities [A, B] over the reverse-edge
fixture, the first enumerated pair (A, B) already yields a path, so only
that pair is searched and its path is returned. -/
theorem C3_pair_enumeration_witness :
    perms2 [nA, nB] = [] ++ (nA, nB) :: [(nB, nA)] ∧
    searchedPairs fixture2 [nA, nB] = [] ++ [(nA, nB)] ∧
    pathSearch fixture2 [nA, nB] = some [(nB, rBA, nA)] := by
  have hsplit : perms2 [nA, nB] = [] ++ (nA, nB) :: [(nB, nA)] := by decide
  have hp : _find_shortest_path fixture2 nA nB = some [(nB, rBA, nA)] := by decide
  have hc := (C3_pair_enumeration fixture2 [nA, nB] (by decide)).2 (by decide)
  obtain ⟨h1, h2⟩ := hc.2 [] (nA, nB) [(nB, nA)] [(nB, rBA, nA)] hsplit
    (fun pr2 h => absurd h (List.not_mem_nil pr2)) hp
  exact ⟨hsplit, h1, h2⟩

/-- Claim C4: a question resolving to exactly one entity gets an empty
rendered path and aggregated facts equal to exactly the outgoing triples of
that entity, without duplicates. -/
theorem C4_single_entity_neighborhood (q : String) (g : Graph) (e : Node)
    (h : _identify_all_entities q g = [e]) :
    (find_reasoning_path q g).chemin_trouve = [] ∧
    (∀ t, t ∈ factsFor g (_identify_all_entities q g)
        (pathSearch g (_identify_all_entities q g)) ↔ t ∈ g ∧ t.1 = e) ∧
    (factsFor g (_identify_all_entities q g)
        (pathSearch g (_identify_all_entities q g))).Nodup := by
  have hps : pathSearch g [e] = none := by
    unfold pathSearch
    rw [if_neg (by simp)]
  refine ⟨?_, ?_, ?_⟩
  · unfold find_reasoning_path
    rw [h]
    show (if optTruthy (pathSearch g [e]) = true
        then ((pathSearch g [e]).getD []).map (formatPathStep g) else []) = []
    rw [hps]
    rfl
  · intro t
    rw [h, hps]
    show t ∈ collectNeighborhood g e ↔ _
    exact mem_collectNeighborhood
  · rw [h, hps]
    show (collectNeighborhood g e).Nodup
    exact collectNeighborhood_nodup

/-- Witness for C4: question "alpha" resolves exactly X; the report's path
is empty and X's outgoing edge is among the duplicate-free facts. -/
theorem C4_single_entity_neighborhood_witness :
    _identify_all_entities "alpha" fixtureLab1 = [nX] ∧
    (find_reasoning_path "alpha" fixtureLab1).chemin_trouve = [] ∧
    (nX, rXY, nY) ∈ factsFor fixtureLab1 (_identify_all_entities "alpha" fixtureLab1)
        (pathSearch fixtureLab1 (_identify_all_entities "alpha" fixtureLab1)) ∧
    (factsFor fixtureLab1 (_identify_all_entities "alpha" fixtureLab1)
        (pathSearch fixtureLab1 (_identify_all_entities "alpha" fixtureLab1))).Nodup := by
  have h : _identify_all_entities "alpha" fixtureLab1 = [nX] := by decide
  have hc := C4_single_entity_neighborhood "alpha" fixtureLab1 nX h
  exact ⟨h, hc.1, (hc.2.1 (nX, rXY, nY)).mpr ⟨by decide, rfl⟩, hc.2.2⟩

/-- Claim C5: when A and B are connected only by the single stored edge
(B, rel, A), searching start=A end=B finds the 1-hop path and records the
triple in its original stored direction. -/
theorem C5_reverse_edge_one_hop (g : Graph) (a b rel : Node)
    (hab : a ≠ b) (hub : isURI b = true) (hmem : (b, rel, a) ∈ g)
    (hno : ∀ t ∈ g, ¬(t.1 = a ∧ t.2.2 = b))
    (honly : ∀ t ∈ g, t.1 = b → t.2.2 = a → t.2.1 = rel) :
    _find_shortest_path g a b = some [(b, rel, a)] := by
  have hchain : isChain g a [(b, rel, a)] b :=
    ⟨b, ⟨hmem, hub, Or.inr ⟨rfl, rfl⟩⟩, rfl⟩
  obtain ⟨p, hp⟩ := shortest_path_complete hab hchain
  obtain ⟨hc, hmin, -⟩ := shortest_path_some_spec hab hp
  have hlen : p.length ≤ 1 := hmin [(b, rel, a)] hchain
  cases p with
  | nil => exact absurd hc hab
  | cons t ts =>
    cases ts with
    | cons t2 ts2 => simp at hlen
    | nil =>
      obtain ⟨c, hedge, hcb⟩ := hc
      have hcb2 : c = b := hcb
      obtain ⟨htg, -, harr⟩ := hedge
      rcases harr with ⟨h1, h2⟩ | ⟨h1, h2⟩
      · rw [hcb2] at h2
        exact absurd ⟨h1, h2⟩ (hno t htg)
      · rw [hcb2] at h1
        have hrel : t.2.1 = rel := honly t htg h1 h2
        have ht : t = (b, rel, a) := by
          rw [← h1, ← hrel, ← h2]
        rw [hp, ht]

/-- Witness for C5 on the reverse-edge fixture. -/
theorem C5_reverse_edge_one_hop_witness :
    (nB, rBA, nA) ∈ fixture2 ∧
      _find_shortest_path fixture2 nA nB = some [(nB, rBA, nA)] := by
  refine ⟨by decide, C5_reverse_edge_one_hop fixture2 nA nB rBA (by decide) (by decide)
    (by decide) (by decide) (by decide)⟩

/-- Claim C6: searching with start equal to end returns the length-zero
path; when no undirected connection exists the search returns the "no
path" value None, which is distinct from the empty path. -/
theorem C6_trivial_and_no_path (g : Graph) (s e : Node) :
    (s = e → _find_shortest_path g s e = some []) ∧
    ((¬ ∃ q, isChain g s q e) → _find_shortest_path g s e = none) ∧
    (some ([] : List Triple) ≠ (none : Option (List Triple))) := by
  refine ⟨?_, fun h => shortest_path_none_of_no_chain h, by simp⟩
  intro he
  subst he
  exact shortest_path_refl g s

/-- Witness for C6: identical endpoints on the empty graph give the empty
path; disconnected endpoints give None. -/
theorem C6_trivial_and_no_path_witness :
    _find_shortest_path [] nA nA = some [] ∧ _find_shortest_path [] nA nB = none := by
  have h1 := (C6_trivial_and_no_path [] nA nA).1 rfl
  have hnc : ¬ ∃ q, isChain ([] : Graph) nA q nB := by
    rintro ⟨q, hq⟩
    cases q with
    | nil =>
      have hab : nA = nB := hq
      exact absurd hab (by decide)
    | cons t ts =>
      obtain ⟨c, ⟨hmem, -, -⟩, -⟩ := hq
      exact absurd hmem (List.not_mem_nil t)
  exact ⟨h1, (C6_trivial_and_no_path [] nA nB).2.1 hnc⟩

/-- Claim C7: a question resolving to zero entities short-circuits into the
all-empty report. -/
theorem C7_unresolved_empty_report (q : String) (g : Graph)
    (h : _identify_all_entities q g = []) :
    find_reasoning_path q g = ⟨q, [], [], []⟩ := by
  unfold find_reasoning_path
  rw [h]

/-- Witness for C7: an unresolvable question over the empty graph. -/
theorem C7_unresolved_empty_report_witness :
    _identify_all_entities "zzz" [] = [] ∧
      find_reasoning_path "zzz" [] = ⟨"zzz", [], [], []⟩ := by
  have h : _identify_all_entities "zzz" ([] : Graph) = [] := by decide
  exact ⟨h, C7_unresolved_empty_report "zzz" [] h⟩

/-- Claim C8: in the synonym pass, an entity is collected exactly when some
synonym-table entry's keyword occurs in the lowercased question and one of
its labels reverse-resolves to that (non-empty, URIRef) entity; a label
resolving to nothing contributes nothing. -/
theorem C8_synonym_pass_lookup (q_lower : String) (g : Graph) (e : Node) :
    e ∈ synonymPass q_lower g ↔
      ∃ kv ∈ synonym_map, strIn kv.1 q_lower = true ∧
        ∃ lab ∈ kv.2, graph_value_subj g rdfs_label (.lit lab) = some e ∧
          nodeTruthy e = true ∧ isURI e = true :=
  mem_synonymPass

/-- Witness for C8: keyword "solution" occurs in "une solution" and the
label "Algorithme de compensation" reverse-resolves to S. -/
theorem C8_synonym_pass_lookup_witness :
    graph_value_subj fixtureSyn rdfs_label (Node.lit "Algorithme de compensation") = some nS ∧
      nS ∈ synonymPass "une solution" fixtureSyn := by
  have hlook : graph_value_subj fixtureSyn rdfs_label
      (Node.lit "Algorithme de compensation") = some nS := by decide
  refine ⟨hlook, (C8_synonym_pass_lookup "une solution" fixtureSyn nS).mpr ?_⟩
  exact ⟨("solution", ["Algorithme de compensation", "Stratégie d'Optimisation",
    "Padding mémoire 3D"]), by decide, by decide,
    "Algorithme de compensation", by decide, hlook, by decide, by decide⟩

/-- Claim C9: the reasoning entry point is deterministic: two runs on the
same question and graph agree on the fact set, on the rendered path list,
and on the fact ordering. -/
theorem C9_reason_idempotent (q : String) (g : Graph) (r1 r2 : Report)
    (h1 : r1 = find_reasoning_path q g) (h2 : r2 = find_reasoning_path q g) :
    r1.faits_deduits.toFinset = r2.faits_deduits.toFinset ∧
      r1.chemin_trouve = r2.chemin_trouve ∧
      r1.faits_deduits = r2.faits_deduits ∧ r1 = r2 := by
  subst h1
  subst h2
  exact ⟨rfl, rfl, rfl, rfl⟩

/-- Witness for C9 on the labelled fixture. -/
theorem C9_reason_idempotent_witness :
    (find_reasoning_path "alpha beta" fixtureLab).faits_deduits.toFinset =
        (find_reasoning_path "alpha beta" fixtureLab).faits_deduits.toFinset ∧
      (find_reasoning_path "alpha beta" fixtureLab).chemin_trouve =
        (find_reasoning_path "alpha beta" fixtureLab).chemin_trouve ∧
      (find_reasoning_path "alpha beta" fixtureLab).faits_deduits =
        (find_reasoning_path "alpha beta" fixtureLab).faits_deduits ∧
      find_reasoning_path "alpha beta" fixtureLab =
        find_reasoning_path "alpha beta" fixtureLab :=
  C9_reason_idempotent "alpha beta" fixtureLab _ _ rfl rfl

/-- Claim C10: every returned path is a simple chain of triples stored in
the graph, visiting no node twice, and every hop endpoint (subject and
object of every path triple) is a URIRef; literals and blank nodes never
serve as hop endpoints. -/
theorem C10_path_simple_uri (g : Graph) (s e : Node) (p : List Triple)
    (hus : isURI s = true) (h : _find_shortest_path g s e = some p) :
    isChain g s p e ∧ (∀ t ∈ p, t ∈ g) ∧ (chainNodes s p).Nodup ∧
      (∀ x ∈ chainNodes s p, isURI x = true) ∧
      (∀ t ∈ p, isURI t.1 = true ∧ isURI t.2.2 = true) := by
  by_cases hne : s = e
  · subst hne
    rw [shortest_path_refl] at h
    injection h with h2
    subst h2
    refine ⟨rfl, ?_, ?_, ?_, ?_⟩
    · intro t ht
      exact absurd ht (List.not_mem_nil t)
    · simp [chainNodes]
    · intro x hx
      simp only [chainNodes, List.mem_singleton] at hx
      subst hx
      exact hus
    · intro t ht
      exact absurd ht (List.not_mem_nil t)
  · obtain ⟨hc, -, hnd⟩ := shortest_path_some_spec hne h
    exact ⟨hc, isChain_mem_graph hc, hnd, isChain_nodes_uri hc hus,
      isChain_triples_uri hc hus⟩

/-- Witness for C10 on the two-route fixture. -/
theorem C10_path_simple_uri_witness :
    isURI nA = true ∧ _find_shortest_path fixture1 nA nB = some [(nA, rAB, nB)] ∧
      isChain fixture1 nA [(nA, rAB, nB)] nB ∧
      (chainNodes nA [(nA, rAB, nB)]).Nodup ∧
      ((nA, rAB, nB) : Triple) ∈ fixture1 := by
  have hu : isURI nA = true := by decide
  have hp : _find_shortest_path fixture1 nA nB = some [(nA, rAB, nB)] := by decide
  obtain ⟨h1, h2, h3, -, -⟩ := C10_path_simple_uri fixture1 nA nB [(nA, rAB, nB)] hu hp
  exact ⟨hu, hp, h1, h3, h2 _ (List.mem_singleton_self _)⟩

end GraphInterrogator
